import Mathlib

/-!
A verification development for the Nokia label print server
(`print-server/services.py`).  The parsing core (`NokiaLabelService`) is
shallowly embedded here: strings are lists of characters, Python `str`
operations (`strip`, `split`, `startswith`, slicing) and the `re` calls of
the source are translated into executable Lean functions.  The regular
expressions of the source use only literal alternation, `\d+`, lazy `.*?`
with a lookahead, and greedy `.*$`; their Python semantics (leftmost
search, `.` not matching a newline, `$` matching at the end or before a
final newline, non-overlapping `finditer`) are reproduced directly.
Whitespace is modelled as ASCII whitespace and `\d` as the ASCII digits,
the character classes relevant to the barcode payloads this service
handles.
-/

namespace Brady

/-- Field separator, `chr(29)` (`GS`) in `services.py`. -/
def GS : Char := Char.ofNat 29

/-- Record separator, `chr(30)` (`RS`) in `services.py`. -/
def RS : Char := Char.ofNat 30

/-- End of transmission, `chr(4)` (`EOT`) in `services.py`. -/
def EOT : Char := Char.ofNat 4

/-- The whitespace set of Python `str.strip()` (CPython
`Py_UNICODE_ISSPACE`): ASCII `\t\n\v\f\r`, space, the separator control
characters `\x1c`-`\x1f` (so a stray field or record separator at either
end of the input is stripped too), and the Unicode space characters. -/
def pyIsSpace (c : Char) : Bool :=
  let n := c.toNat
  (9 ≤ n && n ≤ 13) || (28 ≤ n && n ≤ 31) || n = 32 || n = 0x85 || n = 0xA0 ||
  n = 0x1680 || (0x2000 ≤ n && n ≤ 0x200A) || n = 0x2028 || n = 0x2029 ||
  n = 0x202F || n = 0x205F || n = 0x3000

/-- Python `\d` restricted to ASCII digits. -/
def pyIsDigit (c : Char) : Bool := c.isDigit

/-- Python `str.strip()`: drop leading and trailing whitespace. -/
def pyStrip (s : List Char) : List Char :=
  ((s.dropWhile pyIsSpace).reverse.dropWhile pyIsSpace).reverse

/-- Everything after the first occurrence of `c`: Python
`s.split(c, 1)[1]` (meaningful when `c ∈ s`). -/
def afterFirst (c : Char) (s : List Char) : List Char :=
  (s.dropWhile (· ≠ c)).drop 1

/-- Everything before the first occurrence of `c`: Python
`s.split(c, 1)[0]`. -/
def beforeFirst (c : Char) (s : List Char) : List Char :=
  s.takeWhile (· ≠ c)

/-- Python `s.split(sep)` for a one-character separator: empty pieces are
kept, `"".split(sep) = [""]`. -/
def splitAll (sep : Char) : List Char → List (List Char)
  | [] => [[]]
  | c :: cs =>
    if c = sep then [] :: splitAll sep cs
    else
      match splitAll sep cs with
      | [] => [[c]]
      | h :: t => (c :: h) :: t

/-- Lazy group capture for a Python pattern fragment
`(.*?)(?=tok1|tok2|...|$)` evaluated at a suffix `r` of the subject
string: the shortest prefix of `r` (not crossing a newline, since `.`
does not match `\n`) after which one of the stop tokens matches or `$`
holds (`$` holds at the end of the subject or just before a final
newline).  `none` when no such prefix exists, in which case the whole
pattern fails at this position. -/
def lazyCapture (stops : List (List Char)) : List Char → Option (List Char)
  | [] => some []
  | c :: cs =>
    if stops.any (fun t => List.isPrefixOf t (c :: cs)) then some []
    else if c = '\n' && cs = [] then some []
    else if c = '\n' then none
    else (lazyCapture stops cs).map (c :: ·)

/-- Python `re.search` for a pattern `pre(.*?)(?=tok1|...|$)` with a
literal prefix `pre`: scan left to right for the first position where the
whole pattern matches, returning the lazy group. -/
def searchPrefixLazy (pre : List Char) (stops : List (List Char)) :
    List Char → Option (List Char)
  | [] => none
  | c :: cs =>
    if List.isPrefixOf pre (c :: cs) then
      match lazyCapture stops ((c :: cs).drop pre.length) with
      | some v => some v
      | none => searchPrefixLazy pre stops cs
    else searchPrefixLazy pre stops cs

/-- Greedy capture for a Python pattern fragment `(.*)$` evaluated at the
suffix `r` of the subject string: `.` does not match a newline and `$`
matches at the end or just before a final newline, so the match succeeds
iff `r` is newline-free (group `r`) or its only newline is its final
character (group `r` without it). -/
def dotStarDollar (r : List Char) : Option (List Char) :=
  if r.contains '\n' then
    if r.dropLast.contains '\n' then none
    else some r.dropLast
  else some r

/-- Python `re.search(r'Q(\d+)(.*)$', s)`: the first position holding a
`Q` followed by at least one digit at which `(.*)$` also succeeds;
returns the greedy digit run and the `(.*)` group. -/
def qSearch : List Char → Option (List Char × List Char)
  | [] => none
  | c :: cs =>
    if c = 'Q' && (match cs with | d :: _ => pyIsDigit d | [] => false) then
      match dotStarDollar (cs.dropWhile pyIsDigit) with
      | some g => some (cs.takeWhile pyIsDigit, g)
      | none => qSearch cs
    else qSearch cs

/-- Non-overlapping left-to-right scan of
`re.finditer(r'(4L|18V|10D)', payload)` in `_split_additional_segments`,
returning the text before the first match together with the chunks
`payload[match.start() : next_match.start()]` (the last chunk runs to the
end of the payload).  The `skip` counter carries the characters of a
matched prefix that the scanner has consumed (the scan resumes after the
match end); while it is positive, characters flow into the current chunk
without being scanned. -/
def auxSplitSkip : Nat → List Char → List Char × List (List Char)
  | _, [] => ([], [])
  | skip + 1, c :: cs =>
    let r := auxSplitSkip skip cs
    (c :: r.1, r.2)
  | 0, c :: cs =>
    if List.isPrefixOf ['4', 'L'] (c :: cs) then
      let r := auxSplitSkip 1 cs
      ([], (c :: r.1) :: r.2)
    else if List.isPrefixOf ['1', '8', 'V'] (c :: cs) then
      let r := auxSplitSkip 2 cs
      ([], (c :: r.1) :: r.2)
    else if List.isPrefixOf ['1', '0', 'D'] (c :: cs) then
      let r := auxSplitSkip 2 cs
      ([], (c :: r.1) :: r.2)
    else
      let r := auxSplitSkip 0 cs
      (c :: r.1, r.2)

/-- The scan of `_split_additional_segments`, started with nothing to
skip. -/
def auxSplitCore (s : List Char) : List Char × List (List Char) :=
  auxSplitSkip 0 s

/-- `NokiaLabelService._split_additional_segments`: split a concatenated
post-quantity payload at every occurrence of `4L`, `18V` or `10D`; a
payload with no match is returned whole, leading untagged text is kept,
and empty stripped pieces are dropped. -/
def split_additional_segments (text : List Char) : List (List Char) :=
  let payload := pyStrip text
  if payload = [] then []
  else
    let r := auxSplitCore payload
    if r.2 = [] then [payload]
    else
      (if pyStrip r.1 = [] then [] else [pyStrip r.1]) ++
        (r.2.map pyStrip).filter (· ≠ [])

/-- The stop tokens of the single `_extract_named_segments` call in
`parse_nokia_string`: `['4L', '18V', '10D', 'Q', '1P', 'S']`. -/
def namedStops : List (List Char) :=
  [['4', 'L'], ['1', '8', 'V'], ['1', '0', 'D'], ['Q'], ['1', 'P'], ['S']]

/-- Non-overlapping matches of `(4L|18V)(.*?)(?=4L|18V|10D|Q|1P|S|$)`
(the pattern built by `_extract_named_segments` for its single call site,
`prefixes=['4L', '18V']`), as `(prefix, raw group)` pairs in scan order.
A position where the prefix matches but the lazy group cannot complete is
skipped, as in Python's scan.  The `skip` counter carries the remaining
length of the current match (prefix plus lazy group), past which the scan
resumes, making `finditer`'s matches non-overlapping. -/
def extractSkip : Nat → List Char → List (List Char × List Char)
  | _, [] => []
  | skip + 1, _ :: cs => extractSkip skip cs
  | 0, c :: cs =>
    if List.isPrefixOf ['4', 'L'] (c :: cs) then
      match lazyCapture namedStops (cs.drop 1) with
      | some v => (['4', 'L'], v) :: extractSkip (1 + v.length) cs
      | none => extractSkip 0 cs
    else if List.isPrefixOf ['1', '8', 'V'] (c :: cs) then
      match lazyCapture namedStops (cs.drop 2) with
      | some v => (['1', '8', 'V'], v) :: extractSkip (2 + v.length) cs
      | none => extractSkip 0 cs
    else extractSkip 0 cs

/-- The scan of `_extract_named_segments`, started with nothing to
skip. -/
def extractMatches (s : List Char) : List (List Char × List Char) :=
  extractSkip 0 s

/-- `NokiaLabelService._extract_named_segments` at its single call site
(`prefixes=['4L', '18V']`, stop tokens `namedStops`): for each prefix in
the `prefixes` order, the first scan match of that prefix whose stripped
value is non-empty yields the segment `prefix ++ value`. -/
def extract_named_segments (text : List Char) : List (List Char) :=
  let payload := pyStrip text
  if payload = [] then []
  else
    let ms := extractMatches payload
    (match ms.find? (fun m => m.1 == ['4', 'L'] && !(pyStrip m.2 == [])) with
     | some m => [['4', 'L'] ++ pyStrip m.2]
     | none => []) ++
    (match ms.find? (fun m => m.1 == ['1', '8', 'V'] && !(pyStrip m.2 == [])) with
     | some m => [['1', '8', 'V'] ++ pyStrip m.2]
     | none => [])

/-- The record built by `parse_nokia_string` (the `parsed` dict of
`services.py`): always carries all six keys. -/
structure ParsedLabel where
  raw : List Char
  part_no : List Char
  serial_no : List Char
  qty : List Char
  serial_segments : List (List Char)
  post_qty_segments : List (List Char)
  deriving Repr, DecidableEq

/-- The sentinel `'UNKNOWN'`. -/
def UNKNOWN : List Char := ['U', 'N', 'K', 'N', 'O', 'W', 'N']

/-- Envelope unwrapping, `services.py` lines 90-104: strip whitespace;
when the string starts with the marker `[)>`, drop everything up to and
including the first field separator (if any), then keep everything before
the first record separator — falling back to the first end-of-transmission
character when no record separator is present.  The `try/except` of the
source can never fire: the only indexing is guarded by the membership
test. -/
def unwrapEnvelope (raw_string : List Char) : List Char :=
  let clean := pyStrip raw_string
  if List.isPrefixOf ['[', ')', '>'] clean then
    let afterHdr := if clean.contains GS then afterFirst GS clean else clean
    if afterHdr.contains RS then beforeFirst RS afterHdr
    else if afterHdr.contains EOT then beforeFirst EOT afterHdr
    else afterHdr
  else clean

/-- Delimiter detection, `services.py` lines 109-114: the candidates are
tried in the order `GS`, `'|'`, `'~'`, `''`; the empty-string candidate is
contained in every string but is falsy, so `if not main_delimiter` sends
exactly the strings containing none of the three real candidates to the
pattern-extraction branch — modelled as `none` here. -/
def detectDelimiter (s : List Char) : Option Char :=
  if s.contains GS then some GS
  else if s.contains '|' then some '|'
  else if s.contains '~' then some '~'
  else none

/-- The mutable fields threaded through the delimited-mode segment loop
(`services.py` lines 185-212). -/
structure PState where
  part_no : List Char
  qty : List Char
  serial_segments : List (List Char)
  post_qty_segments : List (List Char)
  deriving Repr, DecidableEq

/-- The quantity sub-branch of the delimited-mode loop
(`services.py` lines 192-206) applied to `q_payload = seg[1:].strip()`:
`re.fullmatch(r'\d+', ...)` keeps a pure digit payload verbatim,
otherwise `re.match(r'^(\d+)(.*)$', ...)` splits a leading digit run from
its suffix; a non-empty suffix keeps only the first digit and feeds the
rest to the auxiliary splitter. -/
def stepQty (st : PState) (q_payload : List Char) : PState :=
  if q_payload ≠ [] && q_payload.all pyIsDigit then
    { st with qty := q_payload }
  else if (match q_payload with | d :: _ => pyIsDigit d | [] => false) then
    match dotStarDollar (q_payload.dropWhile pyIsDigit) with
    | some g =>
      let digits := q_payload.takeWhile pyIsDigit
      let suffix := pyStrip g
      if suffix ≠ [] && digits ≠ [] then
        let remainder := pyStrip (digits.drop 1 ++ suffix)
        if remainder ≠ [] then
          { st with qty := digits.take 1,
                    post_qty_segments :=
                      st.post_qty_segments ++ split_additional_segments remainder }
        else { st with qty := digits.take 1 }
      else { st with qty := digits }
    | none => st
  else st

/-- One iteration of the delimited-mode segment loop: strip the segment,
skip it when empty, otherwise classify by prefix in the order `1P`, `Q`,
`S`, (`4L`/`18V`/`10D`), catch-all serial continuation. -/
def stepSeg (st : PState) (seg0 : List Char) : PState :=
  let seg := pyStrip seg0
  if seg = [] then st
  else if List.isPrefixOf ['1', 'P'] seg then
    { st with part_no := seg.drop 2 }
  else if List.isPrefixOf ['Q'] seg then
    stepQty st (pyStrip (seg.drop 1))
  else if List.isPrefixOf ['S'] seg then
    { st with serial_segments := st.serial_segments ++ [seg.drop 1] }
  else if List.isPrefixOf ['4', 'L'] seg || List.isPrefixOf ['1', '8', 'V'] seg ||
          List.isPrefixOf ['1', '0', 'D'] seg then
    { st with post_qty_segments := st.post_qty_segments ++ [seg] }
  else
    { st with serial_segments := st.serial_segments ++ [seg] }

/-- The delimited-mode segment loop over a segment list. -/
def runSegs (st : PState) (segs : List (List Char)) : PState :=
  segs.foldl stepSeg st

/-- Delimited mode of `parse_nokia_string` (`services.py` lines 175-217):
split on the detected delimiter, run the classification loop from the
default state, then derive `serial_no` from the collected serial segments
when there are any. -/
def parseDelimited (raw_string clean : List Char) (d : Char) : ParsedLabel :=
  let st := runSegs ⟨UNKNOWN, ['1'], [], []⟩ (splitAll d clean)
  { raw := raw_string
    part_no := st.part_no
    serial_no :=
      if st.serial_segments ≠ [] then List.intercalate [GS] st.serial_segments
      else UNKNOWN
    qty := st.qty
    serial_segments := st.serial_segments
    post_qty_segments := st.post_qty_segments }

/-- Residual-header removal in the undelimited branch
(`services.py` lines 128-131). -/
def undelimClean (s : List Char) : List Char :=
  if List.isPrefixOf ['[', ')', '>', '0', '6'] s then s.drop 5
  else if List.isPrefixOf ['0', '6'] s then s.drop 2
  else s

/-- Stop tokens of `re.search(r'1P(.*?)(?=S|Q|18V|4L|10D|$)', ...)`. -/
def pStops : List (List Char) :=
  [['S'], ['Q'], ['1', '8', 'V'], ['4', 'L'], ['1', '0', 'D']]

/-- Stop tokens of `re.search(r'S(.*?)(?=Q|1P|18V|4L|10D|$)', ...)`. -/
def sStops : List (List Char) :=
  [['Q'], ['1', 'P'], ['1', '8', 'V'], ['4', 'L'], ['1', '0', 'D']]

/-- The quantity-plus-suffix extraction of the undelimited branch
(`services.py` lines 149-161): the `Q(\d+)(.*)$` search followed by the
single-digit rule — a non-empty stripped suffix keeps only the first
digit and hands the remaining digits plus suffix to the auxiliary
splitter; otherwise the digit run is the quantity and the sentinel `1`
stands when the search fails. -/
def undelimQty (c2 : List Char) : List Char × List (List Char) :=
  match qSearch c2 with
  | some (digits, g) =>
    let suffix := pyStrip g
    if suffix ≠ [] && digits ≠ [] then
      let remainder := pyStrip (digits.drop 1 ++ suffix)
      if remainder ≠ [] then
        (digits.take 1, split_additional_segments remainder)
      else (digits.take 1, ([] : List (List Char)))
    else (digits, ([] : List (List Char)))
  | none => (['1'], ([] : List (List Char)))

/-- Undelimited (regex) mode of `parse_nokia_string`
(`services.py` lines 116-173): residual-header removal, the three ordered
non-greedy searches, the quantity/suffix split, and the full-payload
`4L`/`18V` scan whose non-empty result overrides `post_qty_segments`. -/
def parseUndelimited (raw_string clean : List Char) : ParsedLabel :=
  let c2 := undelimClean clean
  let part :=
    match searchPrefixLazy ['1', 'P'] pStops c2 with
    | some v => pyStrip v
    | none => UNKNOWN
  let serialPair :=
    match searchPrefixLazy ['S'] sStops c2 with
    | some v => (pyStrip v, [pyStrip v])
    | none => (UNKNOWN, ([] : List (List Char)))
  let qtyPost := undelimQty c2
  let normalized := extract_named_segments c2
  { raw := raw_string
    part_no := part
    serial_no := serialPair.1
    qty := qtyPost.1
    serial_segments := serialPair.2
    post_qty_segments := if normalized ≠ [] then normalized else qtyPost.2 }

/-- `NokiaLabelService.parse_nokia_string` (`services.py` lines 80-217):
unwrap the envelope, detect the delimiter, and run the matching mode.
Every operation of the source is total (the one guarded index cannot
fail), so the embedding is a total function — the parser never raises. -/
def parse_nokia_string (raw_string : List Char) : ParsedLabel :=
  let clean := unwrapEnvelope raw_string
  match detectDelimiter clean with
  | some d => parseDelimited raw_string clean d
  | none => parseUndelimited raw_string clean

/-- `NokiaLabelService.construct_iso15434_string`
(`services.py` lines 219-250). -/
def construct_iso15434_string (p : ParsedLabel) : List Char :=
  ['[', ')', '>'] ++ [RS] ++ ['0', '6'] ++ [GS] ++
  ['1', 'P'] ++ p.part_no ++ [GS] ++
  (if p.serial_segments ≠ [] then
     ['S'] ++ List.intercalate [GS] p.serial_segments ++ [GS]
   else ['S'] ++ p.serial_no ++ [GS]) ++
  ['Q'] ++ p.qty ++
  (p.post_qty_segments.map (fun s => GS :: s)).flatten ++
  [RS] ++ [EOT]

/-! ## Helper lemmas -/

/-- A list without leading or trailing `strip`-whitespace is fixed by
`pyStrip`. -/
theorem pyStrip_eq_self {s : List Char}
    (h1 : ∀ c ∈ s.head?, pyIsSpace c = false)
    (h2 : ∀ c ∈ s.getLast?, pyIsSpace c = false) :
    pyStrip s = s := by
  have hd : s.dropWhile pyIsSpace = s := by
    cases s with
    | nil => rfl
    | cons c t =>
      rw [List.dropWhile_cons, h1 c rfl]
      simp
  have hrev : s.reverse.dropWhile pyIsSpace = s.reverse := by
    cases hr : s.reverse with
    | nil => rfl
    | cons c t =>
      have hc : s.getLast? = some c := by
        rw [← List.head?_reverse, hr]; rfl
      rw [List.dropWhile_cons, h2 c hc]
      simp
  rw [pyStrip, hd, hrev, List.reverse_reverse]

theorem intercalate_singleton (sep : List Char) (x : List Char) :
    List.intercalate sep [x] = x := by
  simp [List.intercalate, List.intersperse]

theorem beforeFirst_append_cons {c : Char} {xs : List Char} (ys : List Char)
    (h : c ∉ xs) : beforeFirst c (xs ++ c :: ys) = xs := by
  induction xs with
  | nil => simp [beforeFirst, List.takeWhile_cons]
  | cons a t ih =>
    have ha : a ≠ c := fun hac => h (hac ▸ List.mem_cons_self a t)
    have ht : c ∉ t := fun hm => h (List.mem_cons_of_mem a hm)
    simp only [List.cons_append, beforeFirst, List.takeWhile_cons]
    simp only [decide_eq_true_eq] at *
    rw [if_pos ha]
    exact congrArg (a :: ·) (ih ht)

theorem afterFirst_append_cons {c : Char} {xs : List Char} (ys : List Char)
    (h : c ∉ xs) : afterFirst c (xs ++ c :: ys) = ys := by
  induction xs with
  | nil => simp [afterFirst, List.dropWhile_cons]
  | cons a t ih =>
    have ha : a ≠ c := fun hac => h (hac ▸ List.mem_cons_self a t)
    have ht : c ∉ t := fun hm => h (List.mem_cons_of_mem a hm)
    simp only [List.cons_append, afterFirst, List.dropWhile_cons] at *
    simp only [decide_eq_true_eq]
    rw [if_pos ha]
    exact ih ht

theorem splitAll_of_not_mem {sep : Char} {s : List Char} (h : sep ∉ s) :
    splitAll sep s = [s] := by
  induction s with
  | nil => rfl
  | cons c t ih =>
    have hc : c ≠ sep := fun hcs => h (hcs ▸ List.mem_cons_self c t)
    have ht : sep ∉ t := fun hm => h (List.mem_cons_of_mem c hm)
    rw [splitAll, if_neg hc, ih ht]

theorem splitAll_append_cons {sep : Char} {xs : List Char} (ys : List Char)
    (h : sep ∉ xs) : splitAll sep (xs ++ sep :: ys) = xs :: splitAll sep ys := by
  induction xs with
  | nil => simp [splitAll]
  | cons a t ih =>
    have ha : a ≠ sep := fun has => h (has ▸ List.mem_cons_self a t)
    have ht : sep ∉ t := fun hm => h (List.mem_cons_of_mem a hm)
    rw [List.cons_append, splitAll, if_neg ha, ih ht]

/-! ## Claims -/

/-- C10.  Canonical envelope construction: for a `ParsedLabel` with
`part_no = "475773A.10"`, `serial_segments = ["2UK2545A05"]`,
`qty = "1"` and empty `post_qty_segments`, `construct_iso15434_string`
returns exactly `[)>` + `chr 30` + `06` + `chr 29` + `1P475773A.10` +
`chr 29` + `S2UK2545A05` + `chr 29` + `Q1` + `chr 30` + `chr 4`, with the
exact control-character byte values 29, 30 and 4 and no printable
substitutes. -/
theorem c10_envelope_construction :
    construct_iso15434_string
      { raw := []
        part_no := ['4', '7', '5', '7', '7', '3', 'A', '.', '1', '0']
        serial_no := ['2', 'U', 'K', '2', '5', '4', '5', 'A', '0', '5']
        qty := ['1']
        serial_segments := [['2', 'U', 'K', '2', '5', '4', '5', 'A', '0', '5']]
        post_qty_segments := [] } =
    ['[', ')', '>'] ++ [Char.ofNat 30] ++ ['0', '6'] ++ [Char.ofNat 29] ++
      ['1', 'P', '4', '7', '5', '7', '7', '3', 'A', '.', '1', '0'] ++ [Char.ofNat 29] ++
      ['S', '2', 'U', 'K', '2', '5', '4', '5', 'A', '0', '5'] ++ [Char.ofNat 29] ++
      ['Q', '1'] ++ [Char.ofNat 30] ++ [Char.ofNat 4] := by
  decide

/-- C7.  Quantity/suffix split with canonical ordering: parsing the
undelimited input `Q14LIN18VLENOK` yields `qty = "1"` and
`post_qty_segments = ["4LIN", "18VLENOK"]` — one `4L` segment followed by
one `18V` segment — and the opposite source order `Q118VLENOK4LIN`
still lists the `4L` segment before the `18V` segment. -/
theorem c7_qty_suffix_split :
    (parse_nokia_string
        ['Q', '1', '4', 'L', 'I', 'N', '1', '8', 'V', 'L', 'E', 'N', 'O', 'K']).qty = ['1'] ∧
    (parse_nokia_string
        ['Q', '1', '4', 'L', 'I', 'N', '1', '8', 'V', 'L', 'E', 'N', 'O', 'K']).post_qty_segments =
      [['4', 'L', 'I', 'N'], ['1', '8', 'V', 'L', 'E', 'N', 'O', 'K']] ∧
    (parse_nokia_string
        ['Q', '1', '1', '8', 'V', 'L', 'E', 'N', 'O', 'K', '4', 'L', 'I', 'N']).post_qty_segments =
      [['4', 'L', 'I', 'N'], ['1', '8', 'V', 'L', 'E', 'N', 'O', 'K']] := by
  refine ⟨by decide, by decide, by decide⟩

/-- C9.  Totality and permissive degradation: the embedded
`parse_nokia_string` is a total Lean function (every operation of the
source is total and the single guarded index cannot fail, so the parser
never raises), it preserves the input in `raw` for every input string,
and garbage inputs — the empty string and a string matching no field
pattern — produce the fully formed record of sentinels: `UNKNOWN` for
the identifiers, `1` for the quantity, empty segment lists. -/
theorem c9_total_defaults :
    (∀ s : List Char, (parse_nokia_string s).raw = s) ∧
    parse_nokia_string [] =
      { raw := [], part_no := UNKNOWN, serial_no := UNKNOWN, qty := ['1'],
        serial_segments := [], post_qty_segments := [] } ∧
    parse_nokia_string ['@', '#', 'z'] =
      { raw := ['@', '#', 'z'], part_no := UNKNOWN, serial_no := UNKNOWN, qty := ['1'],
        serial_segments := [], post_qty_segments := [] } := by
  refine ⟨fun s => ?_, by decide, by decide⟩
  simp only [parse_nokia_string]
  cases h : detectDelimiter (unwrapEnvelope s) <;> rfl

/-- C5, counterexample.  The claim says `serial_no` equals the
field-separator join of `serial_segments` *including when
`serial_segments` is empty*; but parsing the empty string leaves
`serial_no` at the sentinel `UNKNOWN` while the join of the empty
sequence is the empty string. -/
theorem c5_counterexample :
    (parse_nokia_string []).serial_segments = [] ∧
    (parse_nokia_string []).serial_no ≠
      List.intercalate [GS] (parse_nokia_string []).serial_segments := by
  refine ⟨by decide, by decide⟩

/-- C5, amended.  Serial coherence invariant: for every input string,
`serial_no` equals the field-separator join of `serial_segments`
whenever `serial_segments` is non-empty; when it is empty, `serial_no`
is the sentinel `UNKNOWN` instead of the empty join. -/
theorem c5_serial_coherence (s : List Char) :
    (parse_nokia_string s).serial_no =
      if (parse_nokia_string s).serial_segments = [] then UNKNOWN
      else List.intercalate [GS] (parse_nokia_string s).serial_segments := by
  simp only [parse_nokia_string]
  cases h : detectDelimiter (unwrapEnvelope s) with
  | some d =>
    simp only [parseDelimited]
    by_cases hss :
        (runSegs ⟨UNKNOWN, ['1'], [], []⟩ (splitAll d (unwrapEnvelope s))).serial_segments = [] <;>
      simp [hss]
  | none =>
    simp only [parseUndelimited]
    cases hs : searchPrefixLazy ['S'] sStops (undelimClean (unwrapEnvelope s)) with
    | some v => simp [intercalate_singleton]
    | none => simp

theorem qSearch_cons (c : Char) (cs : List Char) :
    qSearch (c :: cs) =
      if (c = 'Q' && (match cs with | d :: _ => pyIsDigit d | [] => false)) then
        match dotStarDollar (cs.dropWhile pyIsDigit) with
        | some g => some (cs.takeWhile pyIsDigit, g)
        | none => qSearch cs
      else qSearch cs := rfl

/-- A successful `Q(\d+)(.*)$` search returns a non-empty all-digit
first group. -/
theorem qSearch_digits {s : List Char} {d g : List Char}
    (h : qSearch s = some (d, g)) : d ≠ [] ∧ d.all pyIsDigit := by
  induction s with
  | nil => exact absurd h (by simp [qSearch])
  | cons c cs ih =>
    rw [qSearch_cons] at h
    split at h
    · rename_i hguard
      split at h
      · rename_i g' hd
        have hd1 : cs.takeWhile pyIsDigit = d := congrArg (·.get!.1) h
        cases cs with
        | nil => simp at hguard
        | cons d0 t =>
          have hd0 : pyIsDigit d0 = true := by
            simp only [Bool.and_eq_true] at hguard
            exact hguard.2
          have htw : (d0 :: t).takeWhile pyIsDigit = d0 :: t.takeWhile pyIsDigit := by
            rw [List.takeWhile_cons, if_pos hd0]
          constructor
          · rw [← hd1, htw]; exact List.cons_ne_nil _ _
          · rw [← hd1, List.all_eq_true]
            exact fun x hx => List.mem_takeWhile_imp hx
      · exact ih h
    · exact ih h

/-- Every assignment to `qty` in the quantity sub-branch writes a
non-empty all-digit string. -/
theorem stepQty_qty_digits (st : PState) (q : List Char)
    (h : st.qty ≠ [] ∧ st.qty.all pyIsDigit) :
    (stepQty st q).qty ≠ [] ∧ (stepQty st q).qty.all pyIsDigit := by
  cases q with
  | nil =>
    have hq : stepQty st [] = st := by simp [stepQty]
    rw [hq]; exact h
  | cons d t =>
    by_cases hall : (d :: t).all pyIsDigit
    · have hq : stepQty st (d :: t) = { st with qty := d :: t } := by
        simp [stepQty, hall]
      rw [hq]
      exact ⟨List.cons_ne_nil _ _, hall⟩
    · by_cases hd0 : pyIsDigit d
      · have hdig : (d :: t).takeWhile pyIsDigit = d :: t.takeWhile pyIsDigit := by
          rw [List.takeWhile_cons, if_pos hd0]
        have htw_ne : (d :: t).takeWhile pyIsDigit ≠ [] := by
          rw [hdig]; exact List.cons_ne_nil _ _
        have htw_all : ((d :: t).takeWhile pyIsDigit).all pyIsDigit = true := by
          rw [List.all_eq_true]
          exact fun x hx => List.mem_takeWhile_imp hx
        have htk_ne : ((d :: t).takeWhile pyIsDigit).take 1 ≠ [] := by
          rw [hdig]; simp
        have htk_all : (((d :: t).takeWhile pyIsDigit).take 1).all pyIsDigit = true := by
          rw [hdig]; simp [hd0]
        have hdw : List.dropWhile pyIsDigit (d :: t) = List.dropWhile pyIsDigit t := by
          rw [List.dropWhile_cons, if_pos hd0]
        cases hdsd : dotStarDollar (List.dropWhile pyIsDigit t) with
        | none =>
          have hq : stepQty st (d :: t) = st := by
            simp only [stepQty, hdw, hdsd]
            split_ifs with hc1 <;> first
              | rfl
              | (rw [Bool.and_eq_true] at hc1; exact absurd hc1.2 hall)
          rw [hq]; exact h
        | some g =>
          simp only [stepQty, hdw, hdsd]
          split_ifs <;> first
            | exact ⟨htk_ne, htk_all⟩
            | exact ⟨htw_ne, htw_all⟩
            | exact h
            | exact ⟨List.cons_ne_nil _ _, by
                rename_i hc1
                rw [Bool.and_eq_true] at hc1
                exact hc1.2⟩
      · have hq : stepQty st (d :: t) = st := by
          simp [stepQty, hall, hd0]
        rw [hq]; exact h

/-- Every assignment to `qty` in the delimited-mode segment loop writes a
non-empty all-digit string. -/
theorem stepSeg_qty_digits (st : PState) (seg : List Char)
    (h : st.qty ≠ [] ∧ st.qty.all pyIsDigit) :
    (stepSeg st seg).qty ≠ [] ∧ (stepSeg st seg).qty.all pyIsDigit := by
  simp only [stepSeg]
  split_ifs <;> first
    | exact h
    | exact stepQty_qty_digits st _ h

/-- The quantity of the undelimited branch is a non-empty all-digit
string: the digit run of a successful search (or its first digit), or
the sentinel `1`. -/
theorem undelimQty_digits (c2 : List Char) :
    (undelimQty c2).1 ≠ [] ∧ (undelimQty c2).1.all pyIsDigit := by
  cases hq : qSearch c2 with
  | none =>
    have h1 : undelimQty c2 = (['1'], []) := by simp [undelimQty, hq]
    rw [h1]
    exact ⟨by simp, by decide⟩
  | some dg =>
    obtain ⟨d1, g1⟩ := dg
    obtain ⟨hne, hall⟩ := qSearch_digits hq
    have htake1 : d1.take 1 ≠ [] ∧ (d1.take 1).all pyIsDigit := by
      cases hd : d1 with
      | nil => exact absurd hd hne
      | cons x xs =>
        rw [hd] at hall
        simp only [List.all_cons, Bool.and_eq_true] at hall
        exact ⟨by simp, by simp [hall.1]⟩
    simp only [undelimQty, hq]
    split_ifs <;> first
      | exact htake1
      | exact ⟨hne, hall⟩

/-- C4, counterexample.  The claim says `qty` is always the sentinel or a
single digit, in particular that the pure digit payload `25` yields a
one-digit quantity; parsing `Q25` yields the two-digit `qty = "25"`. -/
theorem c4_counterexample :
    (parse_nokia_string ['Q', '2', '5']).qty = ['2', '5'] ∧
    (parse_nokia_string ['Q', '2', '5']).qty.length ≠ 1 ∧
    (parse_nokia_string ['Q', '2', '5']).qty ≠ ['1'] := by
  refine ⟨by decide, by decide, by decide⟩

/-- C4, amended.  Quantity digit invariant: for every input string `qty`
is a non-empty string of digits (the sentinel `1` included); a quantity
payload of pure digits is kept verbatim — possibly multi-digit, as for
`Q25` — and only when a non-digit suffix follows the digits is the
quantity truncated to the first digit, as for `Q14LIN18VLENOK`. -/
theorem c4_qty_digits :
    (∀ s : List Char,
      (parse_nokia_string s).qty ≠ [] ∧ (parse_nokia_string s).qty.all pyIsDigit) ∧
    (parse_nokia_string ['Q', '2', '5']).qty = ['2', '5'] ∧
    (parse_nokia_string
        ['Q', '1', '4', 'L', 'I', 'N', '1', '8', 'V', 'L', 'E', 'N', 'O', 'K']).qty = ['1'] := by
  refine ⟨fun s => ?_, by decide, by decide⟩
  simp only [parse_nokia_string]
  cases h : detectDelimiter (unwrapEnvelope s) with
  | some d =>
    simp only [parseDelimited]
    have hinv : ∀ (segs : List (List Char)) (st : PState),
        st.qty ≠ [] ∧ st.qty.all pyIsDigit →
        (runSegs st segs).qty ≠ [] ∧ (runSegs st segs).qty.all pyIsDigit := by
      intro segs
      induction segs with
      | nil => exact fun st hst => hst
      | cons x xs ih =>
        intro st hst
        rw [runSegs, List.foldl_cons]
        exact ih (stepSeg st x) (stepSeg_qty_digits st x hst)
    exact hinv _ _ ⟨by decide, by decide⟩
  | none =>
    simp only [parseUndelimited]
    exact undelimQty_digits _

theorem noTrailWS_append {l x : List Char}
    (hl : ∀ c ∈ l.getLast?, pyIsSpace c = false)
    (hx : ∀ c ∈ x.getLast?, pyIsSpace c = false) :
    ∀ c ∈ (l ++ x).getLast?, pyIsSpace c = false := by
  intro c hc
  rw [List.getLast?_append] at hc
  cases hx0 : x.getLast? with
  | some w =>
    rw [hx0] at hc
    have : c = w := by simpa [Option.or] using hc.symm
    exact this ▸ hx w (by rw [hx0]; rfl)
  | none =>
    rw [hx0] at hc
    exact hl c (by simpa [Option.or] using hc)

/-- A `1P`-prefixed segment with no trailing whitespace overwrites
`part_no` with its remainder and changes nothing else. -/
theorem stepSeg_part (st : PState) (x : List Char)
    (hx : ∀ c ∈ x.getLast?, pyIsSpace c = false) :
    stepSeg st (['1', 'P'] ++ x) = { st with part_no := x } := by
  have hstrip : pyStrip (['1', 'P'] ++ x) = ['1', 'P'] ++ x := by
    refine pyStrip_eq_self (fun c hc => ?_) ?_
    · have h1 : '1' = c := by simpa using hc
      rw [← h1]; decide
    · exact noTrailWS_append (by decide) hx
  simp only [stepSeg, hstrip]
  rw [if_neg (by simp), if_pos (by simp [List.isPrefixOf])]
  exact rfl

/-- When the field separator is absent and `'|'` is present, the
delimiter detector picks `'|'`. -/
theorem detectDelimiter_pipe {s : List Char} (hg : GS ∉ s) (hp : '|' ∈ s) :
    detectDelimiter s = some '|' := by
  unfold detectDelimiter
  rw [if_neg (by simpa using hg), if_pos (by simpa using hp)]

/-- C3, counterexample.  The claim says the first `1P` segment wins and
later ones are ignored; parsing `1PA|1PB` yields `part_no = "B"` from
the *second* `1P` segment, not `"A"` from the first. -/
theorem c3_counterexample :
    (parse_nokia_string ['1', 'P', 'A', '|', '1', 'P', 'B']).part_no = ['B'] ∧
    (parse_nokia_string ['1', 'P', 'A', '|', '1', 'P', 'B']).part_no ≠ ['A'] := by
  refine ⟨by decide, by decide⟩

/-- C3, amended.  Last occurrence wins for the part number: each `1P`
segment overwrites `part_no`, so in a delimited input with two `1P`
segments the resulting `part_no` is the remainder of the *last* one; the
earlier `1P` segment is overwritten. -/
theorem c3_last_1P_wins (a b : List Char)
    (hga : GS ∉ a) (hgb : GS ∉ b)
    (hpa : '|' ∉ a) (hpb : '|' ∉ b)
    (hsa : ∀ c ∈ a.getLast?, pyIsSpace c = false)
    (hsb : ∀ c ∈ b.getLast?, pyIsSpace c = false) :
    (parse_nokia_string
      ((['1', 'P'] ++ a) ++ '|' :: (['1', 'P'] ++ b))).part_no = b := by
  have hna : '|' ∉ ['1', 'P'] ++ a := by
    intro hmem
    rcases List.mem_append.mp hmem with h1 | h2
    · simp at h1
    · exact hpa h2
  have hnb : '|' ∉ ['1', 'P'] ++ b := by
    intro hmem
    rcases List.mem_append.mp hmem with h1 | h2
    · simp at h1
    · exact hpb h2
  have hstrip : pyStrip ((['1', 'P'] ++ a) ++ '|' :: (['1', 'P'] ++ b)) =
      (['1', 'P'] ++ a) ++ '|' :: (['1', 'P'] ++ b) := by
    refine pyStrip_eq_self (fun c hc => ?_) ?_
    · have h1 : '1' = c := by simpa using hc
      rw [← h1]; decide
    · refine noTrailWS_append (noTrailWS_append (by decide) hsa) ?_
      have : '|' :: (['1', 'P'] ++ b) = ['|', '1', 'P'] ++ b := by simp
      rw [this]
      exact noTrailWS_append (by decide) hsb
  have hunwrap : unwrapEnvelope ((['1', 'P'] ++ a) ++ '|' :: (['1', 'P'] ++ b)) =
      (['1', 'P'] ++ a) ++ '|' :: (['1', 'P'] ++ b) := by
    unfold unwrapEnvelope
    rw [hstrip, if_neg (by simp [List.isPrefixOf])]
  have hgs : GS ∉ (['1', 'P'] ++ a) ++ '|' :: (['1', 'P'] ++ b) := by
    intro hmem
    rcases List.mem_append.mp hmem with h1 | h2
    · rcases List.mem_append.mp h1 with h3 | h4
      · simp at h3
        rcases h3 with h | h <;> exact absurd h (by decide)
      · exact hga h4
    · rcases List.mem_cons.mp h2 with h3 | h4
      · exact absurd h3 (by decide)
      · rcases List.mem_append.mp h4 with h5 | h6
        · simp at h5
          rcases h5 with h | h <;> exact absurd h (by decide)
        · exact hgb h6
  have hpipe : '|' ∈ (['1', 'P'] ++ a) ++ '|' :: (['1', 'P'] ++ b) :=
    List.mem_append.mpr (Or.inr (List.mem_cons_self _ _))
  have hdet : detectDelimiter ((['1', 'P'] ++ a) ++ '|' :: (['1', 'P'] ++ b)) =
      some '|' := detectDelimiter_pipe hgs hpipe
  have hsplit : splitAll '|' ((['1', 'P'] ++ a) ++ '|' :: (['1', 'P'] ++ b)) =
      [['1', 'P'] ++ a, ['1', 'P'] ++ b] := by
    rw [splitAll_append_cons _ hna, splitAll_of_not_mem hnb]
  rw [parse_nokia_string, hunwrap, hdet]
  simp only [parseDelimited, hsplit, runSegs, List.foldl_cons, List.foldl_nil]
  rw [stepSeg_part _ _ hsa, stepSeg_part _ _ hsb]

/-- C3, witness for the amended theorem at a concrete input. -/
theorem c3_last_1P_wins_witness :
    (parse_nokia_string ((['1', 'P'] ++ ['A']) ++ '|' :: (['1', 'P'] ++ ['B']))).part_no =
      ['B'] :=
  c3_last_1P_wins ['A'] ['B'] (by decide) (by decide) (by decide)
    (by decide) (by decide) (by decide)

theorem noTrailWS_append_right {l x : List Char} (hne : x ≠ [])
    (hx : ∀ c ∈ x.getLast?, pyIsSpace c = false) :
    ∀ c ∈ (l ++ x).getLast?, pyIsSpace c = false := by
  intro c hc
  rw [List.getLast?_append] at hc
  cases hx0 : x.getLast? with
  | some w =>
    rw [hx0] at hc
    have : c = w := by simpa [Option.or] using hc.symm
    exact this ▸ hx w (by rw [hx0]; rfl)
  | none => exact absurd (List.getLast?_eq_none_iff.mp hx0) hne

/-- Everything before the last occurrence of `c` (what the specification
describes for the footer strip). -/
def beforeLast (c : Char) (s : List Char) : List Char :=
  ((s.reverse.dropWhile (· ≠ c)).drop 1).reverse

/-- The envelope unwrapping as the specification and claim C2 word it
(refinement comparison definition, following the spec's words rather than
the source): the footer is discarded by locating the *last* occurrence of
the record separator — falling back to the end-of-transmission character
— and keeping everything before it. -/
def claimedUnwrapEnvelope (raw_string : List Char) : List Char :=
  let clean := pyStrip raw_string
  if List.isPrefixOf ['[', ')', '>'] clean then
    let afterHdr := if clean.contains GS then afterFirst GS clean else clean
    if afterHdr.contains RS then beforeLast RS afterHdr
    else if afterHdr.contains EOT then beforeLast EOT afterHdr
    else afterHdr
  else clean

/-- C2, counterexample.  On the envelope whose post-header text is
`1PABC` + RS + `1PDEF` + RS + `X` (two record separators), the code keeps
everything before the *first* record separator (`1PABC`), not everything
before the second as the claim states. -/
theorem c2_counterexample :
    unwrapEnvelope
        (['[', ')', '>'] ++ [RS] ++ ['0', '6'] ++ [GS] ++
         ['1', 'P', 'A', 'B', 'C'] ++ [RS] ++ ['1', 'P', 'D', 'E', 'F'] ++ [RS] ++ ['X']) =
      ['1', 'P', 'A', 'B', 'C'] ∧
    claimedUnwrapEnvelope
        (['[', ')', '>'] ++ [RS] ++ ['0', '6'] ++ [GS] ++
         ['1', 'P', 'A', 'B', 'C'] ++ [RS] ++ ['1', 'P', 'D', 'E', 'F'] ++ [RS] ++ ['X']) =
      ['1', 'P', 'A', 'B', 'C'] ++ [RS] ++ ['1', 'P', 'D', 'E', 'F'] ∧
    unwrapEnvelope
        (['[', ')', '>'] ++ [RS] ++ ['0', '6'] ++ [GS] ++
         ['1', 'P', 'A', 'B', 'C'] ++ [RS] ++ ['1', 'P', 'D', 'E', 'F'] ++ [RS] ++ ['X']) ≠
      claimedUnwrapEnvelope
        (['[', ')', '>'] ++ [RS] ++ ['0', '6'] ++ [GS] ++
         ['1', 'P', 'A', 'B', 'C'] ++ [RS] ++ ['1', 'P', 'D', 'E', 'F'] ++ [RS] ++ ['X']) := by
  refine ⟨by decide, by decide, by decide⟩

/-- C2, amended.  Envelope unwrapping: for an input starting with `[)>`,
after header stripping the footer is discarded by locating the *first*
occurrence of the record separator and keeping everything before it (the
end-of-transmission character is the fallback when no record separator is
present); in particular, when the post-header text contains two record
separators, everything before the first one is kept. -/
theorem c2_unwrap_first_rs (u v : List Char)
    (h1 : RS ∉ u) (hvne : v ≠ [])
    (hv : ∀ c ∈ v.getLast?, pyIsSpace c = false) :
    unwrapEnvelope
      (['[', ')', '>'] ++ [RS] ++ ['0', '6'] ++ [GS] ++ (u ++ RS :: v)) = u := by
  have hshape : ['[', ')', '>'] ++ [RS] ++ ['0', '6'] ++ [GS] ++ (u ++ RS :: v) =
      ['[', ')', '>', RS, '0', '6'] ++ GS :: (u ++ RS :: v) := by simp
  rw [hshape]
  have hstrip : pyStrip (['[', ')', '>', RS, '0', '6'] ++ GS :: (u ++ RS :: v)) =
      ['[', ')', '>', RS, '0', '6'] ++ GS :: (u ++ RS :: v) := by
    refine pyStrip_eq_self (fun c hc => ?_) ?_
    · have h2 : '[' = c := by simpa using hc
      rw [← h2]; decide
    · refine noTrailWS_append_right (by simp) ?_
      have h3 : GS :: (u ++ RS :: v) = (GS :: u ++ [RS]) ++ v := by simp
      rw [h3]
      exact noTrailWS_append_right hvne hv
  have hAF : afterFirst GS (['[', ')', '>', RS, '0', '6'] ++ GS :: (u ++ RS :: v)) =
      u ++ RS :: v := afterFirst_append_cons _ (by decide)
  simp only [unwrapEnvelope]
  rw [hstrip]
  rw [if_pos (show List.isPrefixOf ['[', ')', '>']
        (['[', ')', '>', RS, '0', '6'] ++ GS :: (u ++ RS :: v)) = true by
      simp [List.isPrefixOf])]
  rw [if_pos (show (['[', ')', '>', RS, '0', '6'] ++
        GS :: (u ++ RS :: v)).contains GS = true by
      refine (List.contains_eq_any_beq _ _).trans ?_
      rw [List.any_eq_true]
      exact ⟨GS, by simp, by simp⟩)]
  rw [hAF]
  rw [if_pos (show (u ++ RS :: v).contains RS = true by
      refine (List.contains_eq_any_beq _ _).trans ?_
      rw [List.any_eq_true]
      exact ⟨RS, by simp, by simp⟩)]
  exact beforeFirst_append_cons _ h1

/-- C2, witness for the amended theorem: a concrete post-header text with
two record separators keeps everything before the first one. -/
theorem c2_unwrap_first_rs_witness :
    unwrapEnvelope
      (['[', ')', '>'] ++ [RS] ++ ['0', '6'] ++ [GS] ++
       (['1', 'P', 'A', 'B', 'C'] ++ RS :: (['1', 'P', 'D', 'E', 'F'] ++ [RS] ++ ['X']))) =
      ['1', 'P', 'A', 'B', 'C'] :=
  c2_unwrap_first_rs ['1', 'P', 'A', 'B', 'C']
    (['1', 'P', 'D', 'E', 'F'] ++ [RS] ++ ['X'])
    (by decide) (by decide) (by decide)

/-- The quantity sub-branch never touches `serial_segments`. -/
theorem stepQty_serial (st : PState) (q : List Char) :
    (stepQty st q).serial_segments = st.serial_segments := by
  unfold stepQty
  cases hdsd : dotStarDollar (List.dropWhile pyIsDigit q) <;>
    split_ifs <;>
      first
        | rfl
        | (dsimp only; split_ifs <;> rfl)

/-- An empty serial sub-field can only be appended by an `S`-prefixed
segment whose stripped form is the bare `S`. -/
theorem stepSeg_empty_serial (st : PState) (x : List Char)
    (h : [] ∈ (stepSeg st x).serial_segments) :
    [] ∈ st.serial_segments ∨ pyStrip x = ['S'] := by
  simp only [stepSeg] at h
  split_ifs at h with h1 h2 h3 h4 h5
  · exact Or.inl h
  · exact Or.inl h
  · rw [stepQty_serial] at h
    exact Or.inl h
  · rcases List.mem_append.mp h with hl | hr
    · exact Or.inl hl
    · obtain ⟨t, ht⟩ := List.isPrefixOf_iff_prefix.mp h4
      have hdrop : (pyStrip x).drop 1 = t := by rw [← ht]; rfl
      have hnil : [] = (pyStrip x).drop 1 := by simpa using hr
      have ht0 : t = [] := by rw [← hdrop, ← hnil]
      refine Or.inr ?_
      rw [← ht, ht0]
      rfl
  · exact Or.inl h
  · rcases List.mem_append.mp h with hl | hr
    · exact Or.inl hl
    · exact absurd (List.mem_singleton.mp hr).symm h1

/-- Over a whole segment list: an empty member of `serial_segments` was
either already in the initial state or some segment strips to the bare
`S`. -/
theorem runSegs_empty_serial {segs : List (List Char)} :
    ∀ {st : PState}, [] ∈ (runSegs st segs).serial_segments →
      [] ∈ st.serial_segments ∨ ['S'] ∈ segs.map pyStrip := by
  induction segs with
  | nil => exact fun h => Or.inl h
  | cons x xs ih =>
    intro st h
    rw [runSegs, List.foldl_cons] at h
    rcases ih h with h2 | h3
    · rcases stepSeg_empty_serial st x h2 with h4 | h5
      · exact Or.inl h4
      · exact Or.inr (by rw [List.map_cons, ← h5]; exact List.mem_cons_self _ _)
    · exact Or.inr (by rw [List.map_cons]; exact List.mem_cons_of_mem _ h3)

/-- C8, counterexample.  The claim says `serial_segments` never contains
the empty string — in particular not from a segment consisting of the
prefix `S` alone; parsing `1PA|S` appends the empty remainder of the
bare `S` segment. -/
theorem c8_counterexample :
    [] ∈ (parse_nokia_string ['1', 'P', 'A', '|', 'S']).serial_segments := by
  decide

/-- C8, amended.  Non-empty serial segments except for bare `S`:
an empty string can appear in `serial_segments` only when, in delimited
mode, some delimiter-split segment strips to exactly `S` (so its
remainder is empty), or, in undelimited mode, the `S` search matched with
an empty stripped group; delimited-mode splitting still skips empty
segments and the catch-all continuation branch never appends an empty
string. -/
theorem c8_empty_serial_only_bare_S (raw : List Char)
    (h : [] ∈ (parse_nokia_string raw).serial_segments) :
    (∃ d, detectDelimiter (unwrapEnvelope raw) = some d ∧
      ['S'] ∈ (splitAll d (unwrapEnvelope raw)).map pyStrip) ∨
    (detectDelimiter (unwrapEnvelope raw) = none ∧
      ∃ v, searchPrefixLazy ['S'] sStops (undelimClean (unwrapEnvelope raw)) = some v ∧
        pyStrip v = []) := by
  simp only [parse_nokia_string] at h
  cases hdet : detectDelimiter (unwrapEnvelope raw) with
  | some d =>
    rw [hdet] at h
    simp only [parseDelimited] at h
    rcases runSegs_empty_serial h with h1 | h2
    · exact absurd h1 (List.not_mem_nil _)
    · exact Or.inl ⟨d, rfl, h2⟩
  | none =>
    rw [hdet] at h
    simp only [parseUndelimited] at h
    cases hs : searchPrefixLazy ['S'] sStops (undelimClean (unwrapEnvelope raw)) with
    | none =>
      rw [hs] at h
      exact absurd h (by simp)
    | some v =>
      rw [hs] at h
      have hv : ([] : List Char) = pyStrip v := by simpa using h
      exact Or.inr ⟨rfl, v, rfl, hv.symm⟩

/-- C8, witness for the amended theorem at the counterexample input. -/
theorem c8_empty_serial_witness :
    (∃ d, detectDelimiter (unwrapEnvelope ['1', 'P', 'A', '|', 'S']) = some d ∧
      ['S'] ∈ (splitAll d (unwrapEnvelope ['1', 'P', 'A', '|', 'S'])).map pyStrip) ∨
    (detectDelimiter (unwrapEnvelope ['1', 'P', 'A', '|', 'S']) = none ∧
      ∃ v, searchPrefixLazy ['S'] sStops
          (undelimClean (unwrapEnvelope ['1', 'P', 'A', '|', 'S'])) = some v ∧
        pyStrip v = []) :=
  c8_empty_serial_only_bare_S ['1', 'P', 'A', '|', 'S'] (by decide)

/-- C6, counterexample.  The claim says the full-payload auxiliary scan
searches for all of `4L`, `18V` and `10D` and that a `10D` segment
present in the payload appears in the override result.  On
`Q14LIN10DXYZ` the quantity-splitting step produces both `4LIN` and
`10DXYZ`, but the override scan — which only searches for `4L` and `18V`
— replaces them with just `4LIN`: the `10D` segment is dropped and no
member of the result starts with `10D`. -/
theorem c6_counterexample :
    (undelimQty (undelimClean (unwrapEnvelope
        ['Q', '1', '4', 'L', 'I', 'N', '1', '0', 'D', 'X', 'Y', 'Z']))).2 =
      [['4', 'L', 'I', 'N'], ['1', '0', 'D', 'X', 'Y', 'Z']] ∧
    (parse_nokia_string
        ['Q', '1', '4', 'L', 'I', 'N', '1', '0', 'D', 'X', 'Y', 'Z']).post_qty_segments =
      [['4', 'L', 'I', 'N']] ∧
    ((parse_nokia_string
        ['Q', '1', '4', 'L', 'I', 'N', '1', '0', 'D', 'X', 'Y', 'Z']).post_qty_segments.any
      (fun t => List.isPrefixOf ['1', '0', 'D'] t)) = false := by
  refine ⟨by decide, by decide, by decide⟩

/-- C6, amended.  Undelimited-mode override: the dedicated full-payload
scan searches only for the prefixes `4L` and `18V` (`10D` is a stop token
but not a searched prefix), so every segment of its result starts with
`4L` or `18V` and a `10D` segment never appears in the override result;
when the scan finds anything, its result replaces the
`post_qty_segments` produced by the quantity-splitting step. -/
theorem c6_override_4L_18V_only :
    (∀ t x, x ∈ extract_named_segments t →
      List.isPrefixOf ['4', 'L'] x = true ∨ List.isPrefixOf ['1', '8', 'V'] x = true) ∧
    (∀ raw, detectDelimiter (unwrapEnvelope raw) = none →
      extract_named_segments (undelimClean (unwrapEnvelope raw)) ≠ [] →
      (parse_nokia_string raw).post_qty_segments =
        extract_named_segments (undelimClean (unwrapEnvelope raw))) := by
  constructor
  · intro t x hx
    simp only [extract_named_segments] at hx
    split_ifs at hx with hp
    · exact absurd hx (List.not_mem_nil _)
    · rcases List.mem_append.mp hx with h1 | h2
      · left
        cases hf : (extractMatches (pyStrip t)).find?
            (fun m => m.1 == ['4', 'L'] && !(pyStrip m.2 == [])) with
        | none =>
          rw [hf] at h1
          exact absurd h1 (List.not_mem_nil _)
        | some m =>
          rw [hf] at h1
          rw [List.mem_singleton.mp h1]
          exact List.isPrefixOf_iff_prefix.mpr (List.prefix_append _ _)
      · right
        cases hf : (extractMatches (pyStrip t)).find?
            (fun m => m.1 == ['1', '8', 'V'] && !(pyStrip m.2 == [])) with
        | none =>
          rw [hf] at h2
          exact absurd h2 (List.not_mem_nil _)
        | some m =>
          rw [hf] at h2
          rw [List.mem_singleton.mp h2]
          exact List.isPrefixOf_iff_prefix.mpr (List.prefix_append _ _)
  · intro raw h1 h2
    simp only [parse_nokia_string]
    rw [h1]
    simp only [parseUndelimited]
    rw [if_pos h2]

/-- C6, witness for the amended theorem: the override applies on the
counterexample input. -/
theorem c6_override_witness :
    (parse_nokia_string
        ['Q', '1', '4', 'L', 'I', 'N', '1', '0', 'D', 'X', 'Y', 'Z']).post_qty_segments =
      extract_named_segments (undelimClean (unwrapEnvelope
        ['Q', '1', '4', 'L', 'I', 'N', '1', '0', 'D', 'X', 'Y', 'Z'])) :=
  c6_override_4L_18V_only.2
    ['Q', '1', '4', 'L', 'I', 'N', '1', '0', 'D', 'X', 'Y', 'Z']
    (by decide) (by decide)

/-! ## Lemmas for the round-trip claim -/

theorem digit_not_space {c : Char} (h : pyIsDigit c = true) :
    pyIsSpace c = false := by
  simp only [pyIsDigit, Char.isDigit, ge_iff_le, Bool.and_eq_true,
    decide_eq_true_eq] at h
  have h1 : 48 ≤ c.toNat := UInt32.le_def.mp h.1
  have h2 : c.toNat ≤ 57 := UInt32.le_def.mp h.2
  simp only [pyIsSpace]
  simp only [Bool.or_eq_false_iff, Bool.and_eq_false_iff, decide_eq_false_iff_not]
  omega

theorem digit_ne {c x : Char} (h : pyIsDigit c = true)
    (hx : 57 < x.toNat ∨ x.toNat < 48) : c ≠ x := by
  simp only [pyIsDigit, Char.isDigit, ge_iff_le, Bool.and_eq_true,
    decide_eq_true_eq] at h
  have h1 : 48 ≤ c.toNat := UInt32.le_def.mp h.1
  have h2 : c.toNat ≤ 57 := UInt32.le_def.mp h.2
  intro he
  subst he
  omega

theorem intercalate_cons_cons (sep : List Char) (x y : List Char)
    (t : List (List Char)) :
    List.intercalate sep (x :: y :: t) = x ++ sep ++ List.intercalate sep (y :: t) := by
  simp [List.intercalate, List.intersperse]

/-- A character different from the separator and absent from every piece
is absent from the `intercalate`. -/
theorem not_mem_intercalate {c : Char} {xs : List (List Char)}
    (h : ∀ x ∈ xs, c ∉ x) (hc : c ≠ GS) : c ∉ List.intercalate [GS] xs := by
  induction xs with
  | nil => simp [List.intercalate, List.intersperse]
  | cons x t ih =>
    cases t with
    | nil =>
      rw [intercalate_singleton]
      exact h x (List.mem_cons_self _ _)
    | cons y u =>
      rw [intercalate_cons_cons]
      intro hmem
      rcases List.mem_append.mp hmem with h1 | h2
      · rcases List.mem_append.mp h1 with h3 | h4
        · exact h x (List.mem_cons_self _ _) h3
        · exact hc (List.mem_singleton.mp h4)
      · exact ih (fun z hz => h z (List.mem_cons_of_mem _ hz)) h2

/-- A character different from the separator and absent from every
auxiliary segment is absent from the flattened `GS`-prefixed tail. -/
theorem not_mem_auxflat {c : Char} {auxs : List (List Char)}
    (h : ∀ a ∈ auxs, c ∉ a) (hc : c ≠ GS) :
    c ∉ (auxs.map (fun s => GS :: s)).flatten := by
  induction auxs with
  | nil => simp
  | cons a t ih =>
    simp only [List.map_cons, List.flatten_cons]
    intro hmem
    rcases List.mem_append.mp hmem with h1 | h2
    · rcases List.mem_cons.mp h1 with h3 | h4
      · exact hc h3
      · exact h a (List.mem_cons_self _ _) h4
    · exact ih (fun z hz => h z (List.mem_cons_of_mem _ hz)) h2

/-- Splitting an intercalation followed by a separator and a remainder
recovers the pieces. -/
theorem splitAll_ic {xs : List (List Char)} (hne : xs ≠ [])
    (h : ∀ x ∈ xs, GS ∉ x) (rest : List Char) :
    splitAll GS (List.intercalate [GS] xs ++ GS :: rest) =
      xs ++ splitAll GS rest := by
  induction xs with
  | nil => exact absurd rfl hne
  | cons x t ih =>
    cases t with
    | nil =>
      rw [intercalate_singleton,
        splitAll_append_cons _ (h x (List.mem_cons_self _ _))]
      rfl
    | cons y u =>
      rw [intercalate_cons_cons]
      have hx : GS ∉ x := h x (List.mem_cons_self _ _)
      have hrw : x ++ [GS] ++ List.intercalate [GS] (y :: u) ++ GS :: rest =
          x ++ GS :: (List.intercalate [GS] (y :: u) ++ GS :: rest) := by simp
      rw [hrw, splitAll_append_cons _ hx,
        ih (List.cons_ne_nil _ _) (fun z hz => h z (List.mem_cons_of_mem _ hz))]
      rfl

/-- Splitting a `GS`-free head followed by `GS`-prefixed auxiliary
segments recovers the head and the segments. -/
theorem splitAll_auxflat {x : List Char} (hx : GS ∉ x)
    {auxs : List (List Char)} (h : ∀ a ∈ auxs, GS ∉ a) :
    splitAll GS (x ++ (auxs.map (fun s => GS :: s)).flatten) = x :: auxs := by
  induction auxs generalizing x with
  | nil => simpa using splitAll_of_not_mem hx
  | cons a t ih =>
    simp only [List.map_cons, List.flatten_cons]
    have hrw : x ++ (GS :: a ++ (t.map (fun s => GS :: s)).flatten) =
        x ++ GS :: (a ++ (t.map (fun s => GS :: s)).flatten) := by simp
    rw [hrw, splitAll_append_cons _ hx,
      ih (h a (List.mem_cons_self _ _)) (fun z hz => h z (List.mem_cons_of_mem _ hz))]

/-- Well-formedness of a serial continuation segment for the round-trip:
non-empty, no surrounding whitespace, delimiter-free, and not starting
with any recognised prefix (so the classifier treats it as a serial
continuation). -/
def contSeg (s : List Char) : Prop :=
  s ≠ [] ∧ (∀ c ∈ s.head?, pyIsSpace c = false) ∧
  (∀ c ∈ s.getLast?, pyIsSpace c = false) ∧ GS ∉ s ∧ RS ∉ s ∧
  List.isPrefixOf ['1', 'P'] s = false ∧ List.isPrefixOf ['Q'] s = false ∧
  List.isPrefixOf ['S'] s = false ∧ List.isPrefixOf ['4', 'L'] s = false ∧
  List.isPrefixOf ['1', '8', 'V'] s = false ∧ List.isPrefixOf ['1', '0', 'D'] s = false

/-- Well-formedness of an auxiliary segment for the round-trip: no
surrounding whitespace, delimiter-free, starting with one of the fixed
auxiliary prefixes. -/
def auxCond (a : List Char) : Prop :=
  (∀ c ∈ a.head?, pyIsSpace c = false) ∧ (∀ c ∈ a.getLast?, pyIsSpace c = false) ∧
  GS ∉ a ∧ RS ∉ a ∧
  (List.isPrefixOf ['4', 'L'] a = true ∨ List.isPrefixOf ['1', '8', 'V'] a = true ∨
    List.isPrefixOf ['1', '0', 'D'] a = true)

/-- An `S`-prefixed segment with no trailing whitespace appends its
remainder to `serial_segments`. -/
theorem stepSeg_S (st : PState) (x : List Char)
    (hx : ∀ c ∈ x.getLast?, pyIsSpace c = false) :
    stepSeg st (['S'] ++ x) =
      { st with serial_segments := st.serial_segments ++ [x] } := by
  have hstrip : pyStrip (['S'] ++ x) = ['S'] ++ x := by
    refine pyStrip_eq_self (fun c hc => ?_) (noTrailWS_append (by decide) hx)
    have h1 : 'S' = c := by simpa using hc
    rw [← h1]; decide
  simp only [stepSeg, hstrip]
  rw [if_neg (by simp), if_neg (by simp [List.isPrefixOf]),
    if_neg (by simp [List.isPrefixOf]), if_pos (by simp [List.isPrefixOf])]
  exact rfl

/-- A `Q`-prefixed segment whose payload is a non-empty digit string sets
`qty` to that payload verbatim. -/
theorem stepSeg_Q (st : PState) (q : List Char) (hne : q ≠ [])
    (hq : q.all pyIsDigit = true) :
    stepSeg st (['Q'] ++ q) = { st with qty := q } := by
  have hqall := List.all_eq_true.mp hq
  have hlast : ∀ c ∈ q.getLast?, pyIsSpace c = false := fun c hc =>
    digit_not_space (hqall c (List.mem_of_mem_getLast? hc))
  have hhead : ∀ c ∈ q.head?, pyIsSpace c = false := fun c hc =>
    digit_not_space (hqall c (List.mem_of_mem_head? hc))
  have hsq : pyStrip q = q := pyStrip_eq_self hhead hlast
  have hstrip : pyStrip (['Q'] ++ q) = ['Q'] ++ q := by
    refine pyStrip_eq_self (fun c hc => ?_)
      (noTrailWS_append (by decide) hlast)
    have h1 : 'Q' = c := by simpa using hc
    rw [← h1]; decide
  simp only [stepSeg, hstrip]
  rw [if_neg (by simp), if_neg (by simp [List.isPrefixOf]),
    if_pos (by simp [List.isPrefixOf])]
  have hdrop : pyStrip (List.drop 1 (['Q'] ++ q)) = q := by
    rw [show List.drop 1 (['Q'] ++ q) = q from rfl, hsq]
  rw [hdrop]
  unfold stepQty
  rw [if_pos (by simp [hne, hq])]

/-- A segment matching no recognised prefix is appended verbatim to
`serial_segments`. -/
theorem stepSeg_cont (st : PState) (x : List Char) (h : contSeg x) :
    stepSeg st x = { st with serial_segments := st.serial_segments ++ [x] } := by
  obtain ⟨hne, hh, hl, _, _, h1, h2, h3, h4, h5, h6⟩ := h
  have hstrip : pyStrip x = x := pyStrip_eq_self hh hl
  simp only [stepSeg, hstrip]
  rw [if_neg hne, if_neg (by simp [h1]), if_neg (by simp [h2]),
    if_neg (by simp [h3]), if_neg (by simp [h4, h5, h6])]

/-- An auxiliary-prefixed segment is appended verbatim to
`post_qty_segments`. -/
theorem stepSeg_auxseg (st : PState) (a : List Char) (h : auxCond a) :
    stepSeg st a = { st with post_qty_segments := st.post_qty_segments ++ [a] } := by
  obtain ⟨hh, hl, _, _, haux⟩ := h
  have hstrip : pyStrip a = a := pyStrip_eq_self hh hl
  rcases haux with hp | hp | hp <;>
  · obtain ⟨t, ht⟩ := List.isPrefixOf_iff_prefix.mp hp
    rw [← ht] at hstrip ⊢
    simp only [stepSeg, hstrip]
    rw [if_neg (by simp), if_neg (by simp [List.isPrefixOf]),
      if_neg (by simp [List.isPrefixOf]), if_neg (by simp [List.isPrefixOf]),
      if_pos (by simp [List.isPrefixOf])]

/-- Running a block of continuation segments appends them all to
`serial_segments`. -/
theorem runSegs_cont_block {sl : List (List Char)} (h : ∀ s ∈ sl, contSeg s) :
    ∀ (st : PState) (rest : List (List Char)),
      runSegs st (sl ++ rest) =
        runSegs { st with serial_segments := st.serial_segments ++ sl } rest := by
  induction sl with
  | nil => intro st rest; simp
  | cons x t ih =>
    intro st rest
    rw [List.cons_append, runSegs, List.foldl_cons,
      stepSeg_cont st x (h x (List.mem_cons_self _ _)), ← runSegs,
      ih (fun s hs => h s (List.mem_cons_of_mem _ hs))]
    simp

/-- Running a block of auxiliary segments appends them all to
`post_qty_segments`. -/
theorem runSegs_aux_block {auxs : List (List Char)} (h : ∀ a ∈ auxs, auxCond a) :
    ∀ st : PState,
      runSegs st auxs = { st with post_qty_segments := st.post_qty_segments ++ auxs } := by
  induction auxs with
  | nil => intro st; simp [runSegs]
  | cons a t ih =>
    intro st
    rw [runSegs, List.foldl_cons, stepSeg_auxseg st a (h a (List.mem_cons_self _ _)),
      ← runSegs, ih (fun s hs => h s (List.mem_cons_of_mem _ hs))]
    simp

theorem not_mem_append {c : Char} {x y : List Char} (hx : c ∉ x) (hy : c ∉ y) :
    c ∉ x ++ y := by
  intro hm
  rcases List.mem_append.mp hm with h | h
  · exact hx h
  · exact hy h

/-- The canonical delimited payload: fields in canonical order, joined by
the field separator. -/
def canonicalPayload (part : List Char) (serials : List (List Char))
    (qty : List Char) (auxs : List (List Char)) : List Char :=
  ['1', 'P'] ++ part ++ [GS] ++ ['S'] ++ List.intercalate [GS] serials ++ [GS] ++
  ['Q'] ++ qty ++ (auxs.map (fun s => GS :: s)).flatten

/-- The canonical envelope around a canonical payload — this is exactly
what `construct_iso15434_string` emits for a record with non-empty
`serial_segments`. -/
def canonicalEnvelope (part : List Char) (serials : List (List Char))
    (qty : List Char) (auxs : List (List Char)) : List Char :=
  ['[', ')', '>'] ++ [RS] ++ ['0', '6'] ++ [GS] ++
    canonicalPayload part serials qty auxs ++ [RS] ++ [EOT]

/-- Well-formedness of the fields of a canonical delimited envelope: no
surrounding whitespace or embedded delimiters in the part number, at
least one serial segment, every serial segment a well-formed
continuation segment, a non-empty all-digit quantity, and every
auxiliary segment carrying one of the fixed auxiliary prefixes. -/
def WFDelim (part : List Char) (serials : List (List Char)) (qty : List Char)
    (auxs : List (List Char)) : Prop :=
  (∀ c ∈ part.head?, pyIsSpace c = false) ∧
  (∀ c ∈ part.getLast?, pyIsSpace c = false) ∧
  GS ∉ part ∧ RS ∉ part ∧
  serials ≠ [] ∧ (∀ s ∈ serials, contSeg s) ∧
  qty ≠ [] ∧ qty.all pyIsDigit = true ∧
  (∀ a ∈ auxs, auxCond a)

/-- A well-formed delimited input in the sense of claim C1: a canonical
envelope over well-formed fields. -/
def IsWellFormedDelimited (P : List Char) : Prop :=
  ∃ part serials qty auxs, WFDelim part serials qty auxs ∧
    P = canonicalEnvelope part serials qty auxs

/-- Parsing a canonical envelope over well-formed fields recovers
exactly those fields. -/
theorem parse_canonicalEnvelope (part : List Char) (serials : List (List Char))
    (qty : List Char) (auxs : List (List Char))
    (h : WFDelim part serials qty auxs) :
    parse_nokia_string (canonicalEnvelope part serials qty auxs) =
      { raw := canonicalEnvelope part serials qty auxs
        part_no := part
        serial_no := List.intercalate [GS] serials
        qty := qty
        serial_segments := serials
        post_qty_segments := auxs } := by
  obtain ⟨hph, hpl, hpg, hpr, hsne, hscond, hqne, hqall, hauxc⟩ := h
  obtain ⟨s0, srest, rfl⟩ : ∃ s0 srest, serials = s0 :: srest := by
    cases serials with
    | nil => exact absurd rfl hsne
    | cons a b => exact ⟨a, b, rfl⟩
  have hqg : GS ∉ qty := fun hm =>
    absurd (List.all_eq_true.mp hqall GS hm) (by decide)
  have hqr : RS ∉ qty := fun hm =>
    absurd (List.all_eq_true.mp hqall RS hm) (by decide)
  have hserg : ∀ s ∈ s0 :: srest, GS ∉ s := fun s hs => (hscond s hs).2.2.2.1
  have hserr : ∀ s ∈ s0 :: srest, RS ∉ s := fun s hs => (hscond s hs).2.2.2.2.1
  have hauxg : ∀ a ∈ auxs, GS ∉ a := fun a ha => (hauxc a ha).2.2.1
  have hauxr : ∀ a ∈ auxs, RS ∉ a := fun a ha => (hauxc a ha).2.2.2.1
  -- the payload is free of record separators
  have hic2 : RS ∉ List.intercalate [GS] (s0 :: srest) :=
    not_mem_intercalate hserr (by decide)
  have hflat2 : RS ∉ (auxs.map (fun s => GS :: s)).flatten :=
    not_mem_auxflat hauxr (by decide)
  have hPrs : RS ∉ canonicalPayload part (s0 :: srest) qty auxs := by
    simp only [canonicalPayload]
    refine not_mem_append (not_mem_append (not_mem_append (not_mem_append
      (not_mem_append (not_mem_append (not_mem_append (not_mem_append
        (by decide) hpr) (by decide)) (by decide)) hic2) (by decide))
        (by decide)) hqr) hflat2
  -- whitespace-free ends
  have hstrip : pyStrip (canonicalEnvelope part (s0 :: srest) qty auxs) =
      canonicalEnvelope part (s0 :: srest) qty auxs := by
    refine pyStrip_eq_self (fun c hc => ?_) (fun c hc => ?_)
    · have h1 : '[' = c := by
        simpa [canonicalEnvelope] using hc
      rw [← h1]; decide
    · have hlastE : (canonicalEnvelope part (s0 :: srest) qty auxs).getLast? =
          some EOT := by
        simp only [canonicalEnvelope]
        exact List.getLast?_concat _
      rw [hlastE] at hc
      have h1 : EOT = c := by simpa using hc
      rw [← h1]; decide
  -- header shape and unwrapping
  have hshape : canonicalEnvelope part (s0 :: srest) qty auxs =
      ['[', ')', '>', RS, '0', '6'] ++
        GS :: (canonicalPayload part (s0 :: srest) qty auxs ++ RS :: [EOT]) := by
    simp [canonicalEnvelope]
  have hunwrap : unwrapEnvelope (canonicalEnvelope part (s0 :: srest) qty auxs) =
      canonicalPayload part (s0 :: srest) qty auxs := by
    simp only [unwrapEnvelope]
    rw [hstrip]
    rw [if_pos (show List.isPrefixOf ['[', ')', '>']
          (canonicalEnvelope part (s0 :: srest) qty auxs) = true by
        rw [hshape]; simp [List.isPrefixOf])]
    rw [if_pos (show (canonicalEnvelope part (s0 :: srest) qty auxs).contains GS = true by
        rw [hshape]
        refine (List.contains_eq_any_beq _ _).trans ?_
        rw [List.any_eq_true]
        exact ⟨GS, by simp, by simp⟩)]
    rw [show afterFirst GS (canonicalEnvelope part (s0 :: srest) qty auxs) =
          canonicalPayload part (s0 :: srest) qty auxs ++ RS :: [EOT] by
        rw [hshape]; exact afterFirst_append_cons _ (by decide)]
    rw [if_pos (show (canonicalPayload part (s0 :: srest) qty auxs ++
          RS :: [EOT]).contains RS = true by
        refine (List.contains_eq_any_beq _ _).trans ?_
        rw [List.any_eq_true]
        exact ⟨RS, by simp, by simp⟩)]
    exact beforeFirst_append_cons _ hPrs
  -- delimiter detection
  have hdet : detectDelimiter (canonicalPayload part (s0 :: srest) qty auxs) =
      some GS := by
    unfold detectDelimiter
    rw [if_pos (show (canonicalPayload part (s0 :: srest) qty auxs).contains GS = true by
      refine (List.contains_eq_any_beq _ _).trans ?_
      rw [List.any_eq_true]
      exact ⟨GS, by simp [canonicalPayload], by simp⟩)]
  -- segmentation
  have hS : ['S'] ++ List.intercalate [GS] (s0 :: srest) =
      List.intercalate [GS] (('S' :: s0) :: srest) := by
    cases srest with
    | nil => simp [intercalate_singleton]
    | cons y u => rw [intercalate_cons_cons, intercalate_cons_cons]; simp
  have hP2 : canonicalPayload part (s0 :: srest) qty auxs =
      (['1', 'P'] ++ part) ++ GS ::
        (List.intercalate [GS] (('S' :: s0) :: srest) ++ GS ::
          ((['Q'] ++ qty) ++ (auxs.map (fun s => GS :: s)).flatten)) := by
    rw [← hS]
    simp [canonicalPayload]
  have hsplit : splitAll GS (canonicalPayload part (s0 :: srest) qty auxs) =
      (['1', 'P'] ++ part) :: (('S' :: s0) :: srest) ++
        (['Q'] ++ qty) :: auxs := by
    rw [hP2]
    rw [splitAll_append_cons _ (not_mem_append (by decide) hpg)]
    rw [splitAll_ic (List.cons_ne_nil _ _) ?hic _]
    case hic =>
      intro x hx
      rcases List.mem_cons.mp hx with h1 | h2
      · subst h1
        intro hm
        rcases List.mem_cons.mp hm with h3 | h4
        · exact absurd h3 (by decide)
        · exact hserg s0 (List.mem_cons_self _ _) h4
      · exact hserg x (List.mem_cons_of_mem _ h2)
    rw [splitAll_auxflat (not_mem_append (by decide) hqg) hauxg]
    rfl
  -- run the classification loop
  have hrun : runSegs ⟨UNKNOWN, ['1'], [], []⟩
      ((['1', 'P'] ++ part) :: (('S' :: s0) :: srest) ++ (['Q'] ++ qty) :: auxs) =
      ⟨part, qty, s0 :: srest, auxs⟩ := by
    rw [show ((['1', 'P'] ++ part) :: (('S' :: s0) :: srest) ++ (['Q'] ++ qty) :: auxs) =
        (['1', 'P'] ++ part) :: ('S' :: s0) :: (srest ++ (['Q'] ++ qty) :: auxs)
      from by simp]
    rw [runSegs, List.foldl_cons, stepSeg_part _ _ hpl, List.foldl_cons]
    rw [show ('S' :: s0) = ['S'] ++ s0 from rfl]
    rw [stepSeg_S _ _ (hscond s0 (List.mem_cons_self _ _)).2.2.1]
    rw [← runSegs, runSegs_cont_block
      (fun s hs => hscond s (List.mem_cons_of_mem _ hs))]
    rw [runSegs, List.foldl_cons, stepSeg_Q _ _ hqne hqall, ← runSegs,
      runSegs_aux_block hauxc]
    simp
  -- assemble
  simp only [parse_nokia_string]
  rw [hunwrap, hdet]
  simp only [parseDelimited, hsplit, hrun]
  rw [if_pos (List.cons_ne_nil _ _)]

/-- `construct_iso15434_string` on a record with non-empty
`serial_segments` emits exactly the canonical envelope. -/
theorem construct_canonical (raw0 part : List Char) (serials : List (List Char))
    (qty : List Char) (auxs : List (List Char)) (hne : serials ≠ []) :
    construct_iso15434_string
      { raw := raw0, part_no := part, serial_no := List.intercalate [GS] serials,
        qty := qty, serial_segments := serials, post_qty_segments := auxs } =
      canonicalEnvelope part serials qty auxs := by
  simp [construct_iso15434_string, canonicalEnvelope, canonicalPayload, hne]

/-- C1.  Round trip: for every well-formed delimited input string `P`
(a canonical envelope whose payload is segmented by the field separator
with fields in canonical order — part, serial, quantity, auxiliary — and
no empty or malformed segments), parsing `P`, constructing the canonical
envelope from the result with `construct_iso15434_string`, and parsing
that envelope again yields a `ParsedLabel` whose `part_no`,
`serial_no`, `serial_segments`, `qty` and `post_qty_segments` equal
those of the first parse. -/
theorem c1_round_trip (P : List Char) (h : IsWellFormedDelimited P) :
    (parse_nokia_string (construct_iso15434_string (parse_nokia_string P))).part_no =
      (parse_nokia_string P).part_no ∧
    (parse_nokia_string (construct_iso15434_string (parse_nokia_string P))).serial_no =
      (parse_nokia_string P).serial_no ∧
    (parse_nokia_string (construct_iso15434_string (parse_nokia_string P))).serial_segments =
      (parse_nokia_string P).serial_segments ∧
    (parse_nokia_string (construct_iso15434_string (parse_nokia_string P))).qty =
      (parse_nokia_string P).qty ∧
    (parse_nokia_string (construct_iso15434_string (parse_nokia_string P))).post_qty_segments =
      (parse_nokia_string P).post_qty_segments := by
  obtain ⟨part, serials, qty, auxs, hwf, rfl⟩ := h
  rw [parse_canonicalEnvelope part serials qty auxs hwf]
  rw [construct_canonical _ part serials qty auxs hwf.2.2.2.2.1]
  rw [parse_canonicalEnvelope part serials qty auxs hwf]
  exact ⟨rfl, rfl, rfl, rfl, rfl⟩

/-- C1, witness: the round trip holds on a concrete canonical envelope
with a realistic part number, serial and quantity. -/
theorem c1_round_trip_witness :
    (parse_nokia_string (construct_iso15434_string (parse_nokia_string
      (canonicalEnvelope ['4', '7', '5', '7', '7', '3', 'A', '.', '1', '0']
        [['2', 'U', 'K', '2', '5', '4', '5', 'A', '0', '5']] ['1'] [])))).part_no =
      (parse_nokia_string
        (canonicalEnvelope ['4', '7', '5', '7', '7', '3', 'A', '.', '1', '0']
          [['2', 'U', 'K', '2', '5', '4', '5', 'A', '0', '5']] ['1'] [])).part_no ∧
    (parse_nokia_string (construct_iso15434_string (parse_nokia_string
      (canonicalEnvelope ['4', '7', '5', '7', '7', '3', 'A', '.', '1', '0']
        [['2', 'U', 'K', '2', '5', '4', '5', 'A', '0', '5']] ['1'] [])))).serial_no =
      (parse_nokia_string
        (canonicalEnvelope ['4', '7', '5', '7', '7', '3', 'A', '.', '1', '0']
          [['2', 'U', 'K', '2', '5', '4', '5', 'A', '0', '5']] ['1'] [])).serial_no ∧
    (parse_nokia_string (construct_iso15434_string (parse_nokia_string
      (canonicalEnvelope ['4', '7', '5', '7', '7', '3', 'A', '.', '1', '0']
        [['2', 'U', 'K', '2', '5', '4', '5', 'A', '0', '5']] ['1'] [])))).serial_segments =
      (parse_nokia_string
        (canonicalEnvelope ['4', '7', '5', '7', '7', '3', 'A', '.', '1', '0']
          [['2', 'U', 'K', '2', '5', '4', '5', 'A', '0', '5']] ['1'] [])).serial_segments ∧
    (parse_nokia_string (construct_iso15434_string (parse_nokia_string
      (canonicalEnvelope ['4', '7', '5', '7', '7', '3', 'A', '.', '1', '0']
        [['2', 'U', 'K', '2', '5', '4', '5', 'A', '0', '5']] ['1'] [])))).qty =
      (parse_nokia_string
        (canonicalEnvelope ['4', '7', '5', '7', '7', '3', 'A', '.', '1', '0']
          [['2', 'U', 'K', '2', '5', '4', '5', 'A', '0', '5']] ['1'] [])).qty ∧
    (parse_nokia_string (construct_iso15434_string (parse_nokia_string
      (canonicalEnvelope ['4', '7', '5', '7', '7', '3', 'A', '.', '1', '0']
        [['2', 'U', 'K', '2', '5', '4', '5', 'A', '0', '5']] ['1'] [])))).post_qty_segments =
      (parse_nokia_string
        (canonicalEnvelope ['4', '7', '5', '7', '7', '3', 'A', '.', '1', '0']
          [['2', 'U', 'K', '2', '5', '4', '5', 'A', '0', '5']] ['1'] [])).post_qty_segments :=
  c1_round_trip
    (canonicalEnvelope ['4', '7', '5', '7', '7', '3', 'A', '.', '1', '0']
      [['2', 'U', 'K', '2', '5', '4', '5', 'A', '0', '5']] ['1'] [])
    ⟨['4', '7', '5', '7', '7', '3', 'A', '.', '1', '0'],
      [['2', 'U', 'K', '2', '5', '4', '5', 'A', '0', '5']], ['1'], [],
      by simp only [WFDelim, contSeg, auxCond]; decide, rfl⟩

end Brady
